import Mathlib

/-!
# Verification of the `choice-string` crate

Shallow embedding of `src/lib.rs` and `src/parser.rs` (a nom-based parser
for the "choice string" mini-language plus an interval normalizer), with
proofs about the embedded definitions.

The parser in `parser.rs` is built from nom combinators.  We embed the
exact combinators it uses, over `List Char` inputs, reproducing nom's
three-way result (`Ok` / `Err::Error` / `Err::Failure`) and the error-kind
bookkeeping of nom's default `Error` type (`append` keeps the inner error,
`or` keeps the later error, `cut` turns `Error` into `Failure`, `alt`
stops at a `Failure`).  `Incomplete` never arises because every combinator
used by the source is from nom's `complete` family.
-/

namespace ChoiceString

/-- nom `ErrorKind` values reachable in this grammar. -/
inductive ErrorKind where
  | Eof | Tag | Digit | MapRes | IsA | Space | Many1 | Alt
  deriving DecidableEq, Repr

/-- Result of running a nom parser on an input: `ok rest value`
(`Ok((rest, value))`), `error k` (`Err(Err::Error(e))` with `e.code = k`),
or `failure k` (`Err(Err::Failure(e))`). -/
inductive PResult (α : Type) where
  | ok (rest : List Char) (val : α)
  | error (k : ErrorKind)
  | failure (k : ErrorKind)
  deriving DecidableEq, Repr

/-- A nom parser over string slices, embedded as `List Char`. -/
def Parser (α : Type) : Type := List Char → PResult α

/-- nom `combinator::map`. -/
def pmap (p : Parser α) (f : α → β) : Parser β := fun i =>
  match p i with
  | .ok r v => .ok r (f v)
  | .error k => .error k
  | .failure k => .failure k

/-- nom `combinator::map_res`: a mapping failure yields `Err::Error` with
kind `MapRes` (never a `Failure`, even if the inner parser used `cut`). -/
def mapRes (p : Parser α) (f : α → Option β) : Parser β := fun i =>
  match p i with
  | .ok r v =>
    match f v with
    | some b => .ok r b
    | none => .error .MapRes
  | .error k => .error k
  | .failure k => .failure k

/-- nom `combinator::cut`: turns `Err::Error` into `Err::Failure`. -/
def pcut (p : Parser α) : Parser α := fun i =>
  match p i with
  | .ok r v => .ok r v
  | .error k => .failure k
  | .failure k => .failure k

/-- nom `branch::alt` for two parsers: on `Err::Error` try the next branch
(the default `Error::or` keeps the later branch's error); a `Failure`
aborts the whole alternation. -/
def palt (p q : Parser α) : Parser α := fun i =>
  match p i with
  | .error _ => q i
  | r => r

/-- nom `sequence::tuple` for two parsers. -/
def ptuple2 (p : Parser α) (q : Parser β) : Parser (α × β) := fun i =>
  match p i with
  | .ok r1 a =>
    match q r1 with
    | .ok r2 b => .ok r2 (a, b)
    | .error k => .error k
    | .failure k => .failure k
  | .error k => .error k
  | .failure k => .failure k

/-- nom `sequence::tuple` for three parsers. -/
def ptuple3 (p : Parser α) (q : Parser β) (r : Parser γ) :
    Parser (α × β × γ) :=
  pmap (ptuple2 p (ptuple2 q r)) (fun x => (x.1, x.2.1, x.2.2))

/-- nom `combinator::eof`: succeeds exactly on empty input, returning the
(empty) remaining input. -/
def peof : Parser (List Char) := fun i =>
  match i with
  | [] => .ok [] []
  | _ :: _ => .error .Eof

/-- nom `combinator::complete`: with complete-input sub-parsers (the only
kind used by the source) it is the identity. -/
def pcomplete (p : Parser α) : Parser α := p

/-- nom `bytes::complete::tag`. -/
def ptag (t : List Char) : Parser (List Char) := fun i =>
  if i.take t.length = t then .ok (i.drop t.length) t else .error .Tag

/-- ASCII lowercase, as used by nom's case-insensitive tag comparison. -/
def asciiLower (c : Char) : Char :=
  if 'A' ≤ c ∧ c ≤ 'Z' then Char.ofNat (c.toNat + 32) else c

/-- nom `bytes::complete::tag_no_case`. -/
def ptagNoCase (t : List Char) : Parser (List Char) := fun i =>
  if (i.take t.length).map asciiLower = t.map asciiLower then
    .ok (i.drop t.length) (i.take t.length)
  else .error .Tag

/-- nom `character::complete::digit1`: one or more ASCII digits. -/
def digit1 : Parser (List Char) := fun i =>
  match i.takeWhile Char.isDigit with
  | [] => .error .Digit
  | d :: ds => .ok (i.dropWhile Char.isDigit) (d :: ds)

/-- The characters accepted by nom `character::complete::space1`:
space and tab only (not all of Unicode whitespace). -/
def isSpaceTab (c : Char) : Bool := c == ' ' || c == '\t'

/-- nom `character::complete::space1`: one or more spaces or tabs. -/
def space1 : Parser (List Char) := fun i =>
  match i.takeWhile isSpaceTab with
  | [] => .error .Space
  | d :: ds => .ok (i.dropWhile isSpaceTab) (d :: ds)

/-- nom `bytes::complete::is_a("-")`: one or more `'-'` characters. -/
def isADash : Parser (List Char) := fun i =>
  match i.takeWhile (fun c => c == '-') with
  | [] => .error .IsA
  | d :: ds => .ok (i.dropWhile (fun c => c == '-')) (d :: ds)

/-- Loop of nom `multi::many1` after a successful first iteration: stop
(with `Ok`) at the next `Err::Error`, abort on `Failure`, and reject a
successful iteration that consumed nothing with kind `Many1`.  The fuel is
a structural-recursion bound; it is called with fuel exceeding the input
length and each iteration consumes at least one character, so the fuel
never runs out. -/
def many1Go (p : Parser α) : Nat → List Char → List α → PResult (List α)
  | 0, _, _ => .error .Many1
  | fuel + 1, i, acc =>
    match p i with
    | .error _ => .ok i acc.reverse
    | .failure k => .failure k
    | .ok i1 o =>
      if i1.length < i.length then many1Go p fuel i1 (o :: acc)
      else .error .Many1

/-- nom `multi::many1`: at least one iteration; a first-iteration
`Err::Error` is passed through (the default `Error::append` discards the
`Many1` wrapper and keeps the inner error). -/
def many1 (p : Parser α) : Parser (List α) := fun i =>
  match p i with
  | .error k => .error k
  | .failure k => .failure k
  | .ok i1 o =>
    if i1.length < i.length then many1Go p (i1.length + 1) i1 [o]
    else .error .Many1

/-! ## Data model (`src/lib.rs`) -/

/-- `SomeElementType`: an individual item or an inclusive range
(`RangeInclusive<usize>` embedded as its two bounds). -/
inductive SomeElementType where
  | Individual (n : Nat)
  | Range (lo hi : Nat)
  deriving DecidableEq, Repr

/-- `Selection`: all, some listed elements, or none. -/
inductive Selection where
  | All
  | Some (v : List SomeElementType)
  | None
  deriving DecidableEq, Repr

/-- `Selection::contains_item`: `RangeInclusive::contains` is
`lo ≤ item && item ≤ hi`. -/
def contains_item (s : Selection) (item : Nat) : Bool :=
  match s with
  | .Some v =>
    v.any (fun element =>
      match element with
      | .Individual num => item == num
      | .Range lo hi => lo ≤ item && item ≤ hi)
  | .All => true
  | .None => false

/-! ## The grammar (`src/parser.rs`) -/

/-- `usize::MAX` on the 64-bit host. -/
def USIZE_MAX : Nat := 2 ^ 64 - 1

/-- `usize::from_str` on a digit string: the numeric value, or `none` on
overflow past `usize::MAX` (or on an empty string). -/
def usizeFromStr (ds : List Char) : Option Nat :=
  if ds.isEmpty then none
  else
    let n := ds.foldl (fun acc c => acc * 10 + (c.toNat - 48)) 0
    if n ≤ USIZE_MAX then some n else none

/-- `individual_element`: `map(map_res(digit1, usize::from_str), Individual)`. -/
def individual_element : Parser SomeElementType :=
  pmap (mapRes digit1 usizeFromStr) SomeElementType.Individual

/-- `range_element`: `tuple((map_res(digit1, from_str), is_a("-"),
map_res(cut(digit1), from_str)))` mapped to `Range(start..=end)`. -/
def range_element : Parser SomeElementType :=
  pmap
    (ptuple3 (mapRes digit1 usizeFromStr) isADash
      (mapRes (pcut digit1) usizeFromStr))
    (fun x => SomeElementType.Range x.1 x.2.2)

/-- `some_element`: `alt((range_element, individual_element))`. -/
def some_element : Parser SomeElementType :=
  palt range_element individual_element

/-- The separator token inside `element_separator`:
`alt((tag(","), tag(";"), space1))`. -/
def sep_token : Parser (List Char) :=
  palt (ptag [',']) (palt (ptag [';']) space1)

/-- `element_separator`:
`alt((map(many1(alt((tag(","), tag(";"), space1))), |_| ""), eof))`. -/
def element_separator : Parser (List Char) :=
  palt (pmap (many1 sep_token) (fun _ => [])) peof

/-- `select_some`: `map(tuple((many1(map(tuple((some_element,
element_separator)), |(etype, _)| etype)), eof)), |a| Selection::Some(a.0))`. -/
def select_some : Parser Selection :=
  pmap
    (ptuple2
      (many1 (pmap (ptuple2 some_element element_separator) Prod.fst))
      peof)
    (fun a => Selection.Some a.1)

/-- `select_none`: `alt((map(eof, |_| None), none_literal))` where
`none_literal = map(tuple((tag_no_case("none"), cut(eof))), |_| None)`. -/
def select_none : Parser Selection :=
  palt
    (pmap peof (fun _ => Selection.None))
    (pmap (ptuple2 (ptagNoCase ['n', 'o', 'n', 'e']) (pcut peof))
      (fun _ => Selection.None))

/-- `select_all`: `map(tuple((tag_no_case("all"), cut(eof))), |_| All)`. -/
def select_all : Parser Selection :=
  pmap (ptuple2 (ptagNoCase ['a', 'l', 'l']) (pcut peof))
    (fun _ => Selection.All)

/-- `selection`: `complete(alt((select_none, select_all, select_some)))`. -/
def selection : Parser Selection :=
  pcomplete (palt select_none (palt select_all select_some))

/-- The outcome of `parser::parse` (exported as `parse_raw`): an `Ok`
selection, an `Err(Error::ParsingFailed(kind))` built from a
`nom::Err::Failure`, or the `panic!("Internal parser error")` hit on any
other parser error (`nom::Err::Error`). -/
inductive ParseResult where
  | ok (s : Selection)
  | err (k : ErrorKind)
  | panicked
  deriving DecidableEq, Repr

/-- `parser::parse` / `parse_raw`. -/
def parse_raw (input : List Char) : ParseResult :=
  match selection input with
  | .ok _ sel => .ok sel
  | .failure k => .err k
  | .error _ => .panicked

/-! ## The normalizer (`src/lib.rs`) -/

/-- The per-element conversion inside `condense_selections`:
`Individual(num) => num..=num`, `Range(range) => range`. -/
def elemToRange : SomeElementType → Nat × Nat
  | .Individual num => (num, num)
  | .Range lo hi => (lo, hi)

/-- Modelled from the spec: the external `range_union_find` crate's
`IntRangeUnionFind` is not part of this repository's sources, so inserting
one nonempty range into the sorted, disjoint, non-adjacent list of ranges
held so far is modelled after spec section 4.2 (an interval-union keyed by
integer bounds that merges any two ranges that overlap or are adjacent,
`hi + 1 == lo`, over the integer domain) and the repository's own unit
tests for `condense_selections`. -/
def insertRange (r : Nat × Nat) : List (Nat × Nat) → List (Nat × Nat)
  | [] => [r]
  | q :: rest =>
    if r.2 + 1 < q.1 then r :: q :: rest
    else if q.2 + 1 < r.1 then q :: insertRange r rest
    else insertRange (min r.1 q.1, max r.2 q.2) rest

/-- The closure in the final `.map` of `condense_selections`: a range with
`start == end` becomes an `Individual`, any other range stays a `Range`. -/
def rangeToElem (a : Nat × Nat) : SomeElementType :=
  if a.1 = a.2 then SomeElementType.Individual a.1
  else SomeElementType.Range a.1 a.2

/-- `condense_selections`: convert every element to an inclusive range,
drop empty ranges (`lo > hi`), insert the survivors into the interval
union, and re-represent each resulting range with `start == end` as an
`Individual`. -/
def condense_selections (selections : List SomeElementType) :
    List SomeElementType :=
  let ranges := (selections.map elemToRange).filter (fun a => a.1 ≤ a.2)
  let union := ranges.foldl (fun acc a => insertRange a acc) []
  union.map rangeToElem

/-- `Selection::from_str` / the crate-level `parse`: parse, then condense
a `Some` selection's elements. -/
def parse (input : List Char) : ParseResult :=
  match parse_raw input with
  | .ok (Selection.Some v) => .ok (Selection.Some (condense_selections v))
  | other => other

/-! ## Auxiliary predicates used in the statements and proofs -/

/-- `n` lies in one of the closed integer ranges of `l`. -/
def coveredBy (n : Nat) (l : List (Nat × Nat)) : Prop :=
  ∃ p ∈ l, p.1 ≤ n ∧ n ≤ p.2

/-! ## Separator characters -/

/-- The characters the grammar's `element_separator` can consume:
comma, semicolon, space and tab — and no other whitespace. -/
def sepChars : List Char := [',', ';', ' ', '\t']

/-- The head of `l` (if any) does not satisfy `p`. -/
def headNot (p : Char → Bool) : List Char → Prop
  | [] => True
  | c :: _ => p c = false

/-- The head of `l` (if any) is not a separator character. -/
def headNotSep : List Char → Prop
  | [] => True
  | c :: _ => c ∉ sepChars

end ChoiceString

namespace ChoiceString

/-! ## Sanity checks: the repository's own unit and integration tests -/

theorem test_condense_ranges :
    condense_selections
      [SomeElementType.Individual 1, SomeElementType.Individual 3,
       SomeElementType.Range 5 9, SomeElementType.Individual 8,
       SomeElementType.Individual 10] =
      [SomeElementType.Individual 1, SomeElementType.Individual 3,
       SomeElementType.Range 5 10] := by decide

theorem test_condense_ranges_more_complex :
    condense_selections
      [SomeElementType.Individual 1, SomeElementType.Individual 3,
       SomeElementType.Range 5 9, SomeElementType.Range 11 20,
       SomeElementType.Individual 10] =
      [SomeElementType.Individual 1, SomeElementType.Individual 3,
       SomeElementType.Range 5 20] := by decide

theorem test_basic_forms :
    parse (String.toList "") = ParseResult.ok Selection.None ∧
    parse (String.toList "none") = ParseResult.ok Selection.None ∧
    parse (String.toList "all") = ParseResult.ok Selection.All ∧
    parse_raw (String.toList "8 9-12 4") =
      ParseResult.ok (Selection.Some
        [SomeElementType.Individual 8, SomeElementType.Range 9 12,
         SomeElementType.Individual 4]) ∧
    parse_raw (String.toList "1 3 5 6-8 1-;455") =
      ParseResult.err ErrorKind.Digit := by decide

/-! ## Claim theorems: error handling (C1, C2, C3) -/

/-- C1: the claim says `parse` and `parse_raw` never panic and surface
every grammar violation (including an unrecognized leading character and
trailing garbage) as the `ParseFailure` error kind.  The code violates
this: on any `nom::Err::Error` (as opposed to `Err::Failure` produced by a
`cut`) the `match` in `parser::parse` reaches
`panic!("Internal parser error")`.  This theorem evaluates the code at
such inputs: `"x"` (unrecognized leading character) and `"1 2x"` (trailing
garbage) both panic instead of returning an error, while a cut-point
violation like `"all5"` does return the error kind. -/
theorem c1_unrecognized_input_panics :
    parse_raw (String.toList "x") = ParseResult.panicked ∧
    parse (String.toList "x") = ParseResult.panicked ∧
    parse_raw (String.toList "1 2x") = ParseResult.panicked ∧
    parse (String.toList "all5") = ParseResult.err ErrorKind.Eof := by decide

/-- C2: the claim says `parse("1-")`, `parse("-5")` and `parse("-")` all
return an `Err` of the `ParseFailure` kind.  Only `"1-"` does (the `cut`
after the consumed `-` separator makes the missing second digit group an
unrecoverable `Failure` with kind `Digit`, not reinterpreted as another
alternative); `"-5"` and `"-"` fail *before* any digits are consumed, so
nom yields a plain `Err::Error` and `parser::parse` panics instead of
returning the error. -/
theorem c2_dangling_range_inputs :
    parse (String.toList "1-") = ParseResult.err ErrorKind.Digit ∧
    parse (String.toList "-5") = ParseResult.panicked ∧
    parse (String.toList "-") = ParseResult.panicked := by decide

/-- C3: the claim says a digit group exceeding `usize::MAX` makes `parse`
return an `Err` of the `ParseFailure` kind.  It does not: `map_res` turns
the `usize::from_str` overflow into a recoverable `nom::Err::Error`, every
alternative then fails with a plain error, and `parser::parse` panics.
This holds both for an individual element / range start
(`"18446744073709551616"` = 2^64) and for a range end
(`"1-18446744073709551616"`), while `usize::MAX` itself still parses. -/
theorem c3_overflow_panics :
    parse (String.toList "18446744073709551616") = ParseResult.panicked ∧
    parse (String.toList "1-18446744073709551616") = ParseResult.panicked ∧
    parse (String.toList "18446744073709551615") =
      ParseResult.ok (Selection.Some
        [SomeElementType.Individual 18446744073709551615]) := by decide

/-! ## Claim theorems: concrete scenarios (C8, C10) -/

/-- C8: an inverted range such as `"8-2"` parses successfully (neither
rejected nor auto-swapped, `parse_raw` keeps `Range(8..=2)`), and
normalization eliminates it as the empty set: `parse` returns a `Some`
with an empty element list, whose `contains_item` is false everywhere. -/
theorem c8_inverted_range :
    parse_raw (String.toList "8-2") =
      ParseResult.ok (Selection.Some [SomeElementType.Range 8 2]) ∧
    parse (String.toList "8-2") = ParseResult.ok (Selection.Some []) ∧
    ∀ item : Nat, contains_item (Selection.Some []) item = false :=
  ⟨by decide, by decide, fun _ => rfl⟩

/-- C10: `is_a("-")` accepts one or more consecutive `'-'` characters
between the two digit groups, so `"1--5"` (outside the spec's single-dash
grammar) parses as `Some([Range(1..=5)])`. -/
theorem c10_multi_dash_range :
    parse_raw (String.toList "1--5") =
      ParseResult.ok (Selection.Some [SomeElementType.Range 1 5]) := by decide

end ChoiceString

namespace ChoiceString

/-! ## Claim theorem: the membership predicate (C5) -/

/-- C5: `contains_item` is true everywhere on `All`, false everywhere on
`None`, and on `Some(elements)` is true iff the item equals some
`Individual` value or lies within the inclusive bounds of some `Range` —
for an arbitrary (normalized or not) element list. -/
theorem c5_contains_item_spec :
    (∀ item : Nat, contains_item Selection.All item = true) ∧
    (∀ item : Nat, contains_item Selection.None item = false) ∧
    ∀ (v : List SomeElementType) (item : Nat),
      contains_item (Selection.Some v) item = true ↔
        ∃ e ∈ v, (match e with
          | SomeElementType.Individual n => item = n
          | SomeElementType.Range lo hi => lo ≤ item ∧ item ≤ hi) := by
  refine ⟨fun _ => rfl, fun _ => rfl, fun v item => ?_⟩
  simp only [contains_item, List.any_eq_true]
  constructor
  · rintro ⟨e, he, hb⟩
    refine ⟨e, he, ?_⟩
    cases e with
    | Individual n => simpa using hb
    | Range lo hi => simpa using hb
  · rintro ⟨e, he, hm⟩
    refine ⟨e, he, ?_⟩
    cases e with
    | Individual n => simpa using hm
    | Range lo hi => simpa using hm

/-! ## Lemmas about the interval union -/

theorem coveredBy_nil (n : Nat) : ¬ coveredBy n [] := by
  simp [coveredBy]

theorem coveredBy_cons (n : Nat) (q : Nat × Nat) (l : List (Nat × Nat)) :
    coveredBy n (q :: l) ↔ (q.1 ≤ n ∧ n ≤ q.2) ∨ coveredBy n l := by
  simp [coveredBy, List.mem_cons, or_and_right, exists_or, exists_eq_left]

/-- Inserting a range adds exactly its integers to the covered set. -/
theorem coveredBy_insertRange (l : List (Nat × Nat)) (r : Nat × Nat)
    (n : Nat) :
    coveredBy n (insertRange r l) ↔
      (r.1 ≤ n ∧ n ≤ r.2) ∨ coveredBy n l := by
  induction l generalizing r with
  | nil => simp [insertRange, coveredBy_cons, coveredBy_nil]
  | cons q rest ih =>
    simp only [insertRange]
    split_ifs with h1 h2
    · simp only [coveredBy_cons]
    · rw [coveredBy_cons, ih, coveredBy_cons]
      tauto
    · rw [ih, coveredBy_cons]
      have key : (min r.1 q.1 ≤ n ∧ n ≤ max r.2 q.2) ↔
          (r.1 ≤ n ∧ n ≤ r.2) ∨ (q.1 ≤ n ∧ n ≤ q.2) := by omega
      rw [key]
      tauto

/-- Folding insertions covers exactly the union of the inserted ranges
and the accumulator. -/
theorem coveredBy_foldl (rs : List (Nat × Nat)) (acc : List (Nat × Nat))
    (n : Nat) :
    coveredBy n (rs.foldl (fun a r => insertRange r a) acc) ↔
      (∃ r ∈ rs, r.1 ≤ n ∧ n ≤ r.2) ∨ coveredBy n acc := by
  induction rs generalizing acc with
  | nil => simp
  | cons r rs ih =>
    simp only [List.foldl_cons, ih, coveredBy_insertRange, List.mem_cons]
    constructor
    · rintro (⟨p, hp, h⟩ | hr | hacc)
      · exact Or.inl ⟨p, Or.inr hp, h⟩
      · exact Or.inl ⟨r, Or.inl rfl, hr⟩
      · exact Or.inr hacc
    · rintro (⟨p, rfl | hp, h⟩ | hacc)
      · exact Or.inr (Or.inl h)
      · exact Or.inl ⟨p, hp, h⟩
      · exact Or.inr (Or.inr hacc)

theorem elemToRange_rangeToElem (a : Nat × Nat) :
    elemToRange (rangeToElem a) = a := by
  obtain ⟨x, y⟩ := a
  unfold rangeToElem
  dsimp only
  split_ifs with h
  · subst h; rfl
  · rfl

/-- `contains_item` on `Some w` in terms of the bounds of the elements. -/
theorem contains_item_iff_covered (w : List SomeElementType) (item : Nat) :
    contains_item (Selection.Some w) item = true ↔
      ∃ e ∈ w, (elemToRange e).1 ≤ item ∧ item ≤ (elemToRange e).2 := by
  simp only [contains_item, List.any_eq_true]
  constructor
  · rintro ⟨e, he, hb⟩
    refine ⟨e, he, ?_⟩
    cases e with
    | Individual n => simp only [elemToRange]; simp at hb; omega
    | Range lo hi => simp only [elemToRange]; simpa using hb
  · rintro ⟨e, he, hc⟩
    refine ⟨e, he, ?_⟩
    cases e with
    | Individual n => simp only [elemToRange] at hc; simp; omega
    | Range lo hi => simp only [elemToRange] at hc; simpa using hc

/-! ## Claim theorem: normalization preserves the represented set (C4) -/

/-- C4: for every element list (arbitrary order, duplicates, overlaps and
inverted ranges permitted) and every item, membership in the condensed
list equals membership in the original list; consequently, whenever
`parse` and `parse_raw` both succeed on an input, `contains_item` agrees
on the two resulting selections for every item. -/
theorem c4_condense_preserves_membership :
    (∀ (v : List SomeElementType) (item : Nat),
      contains_item (Selection.Some (condense_selections v)) item =
        contains_item (Selection.Some v) item) ∧
    ∀ (input : List Char) (s1 s2 : Selection),
      parse input = ParseResult.ok s1 → parse_raw input = ParseResult.ok s2 →
      ∀ item : Nat, contains_item s1 item = contains_item s2 item := by
  have main : ∀ (v : List SomeElementType) (item : Nat),
      contains_item (Selection.Some (condense_selections v)) item =
        contains_item (Selection.Some v) item := by
    intro v item
    rw [Bool.eq_iff_iff, contains_item_iff_covered, contains_item_iff_covered]
    unfold condense_selections
    simp only []
    constructor
    · rintro ⟨e, he, hc⟩
      obtain ⟨a, ha, rfl⟩ := List.mem_map.mp he
      rw [elemToRange_rangeToElem] at hc
      have : coveredBy item
          ((((v.map elemToRange).filter (fun a => a.1 ≤ a.2)).foldl
            (fun acc a => insertRange a acc) [])) := ⟨a, ha, hc⟩
      rw [coveredBy_foldl] at this
      rcases this with ⟨r, hr, hcov⟩ | habs
      · obtain ⟨hr', _⟩ := List.mem_filter.mp hr
        obtain ⟨e, he', rfl⟩ := List.mem_map.mp hr'
        exact ⟨e, he', hcov⟩
      · exact absurd habs (coveredBy_nil item)
    · rintro ⟨e, he, hc⟩
      have hmem : elemToRange e ∈ (v.map elemToRange).filter
          (fun a => a.1 ≤ a.2) := by
        refine List.mem_filter.mpr ⟨List.mem_map_of_mem _ he, ?_⟩
        simp only [decide_eq_true_eq]
        omega
      have : coveredBy item
          ((((v.map elemToRange).filter (fun a => a.1 ≤ a.2)).foldl
            (fun acc a => insertRange a acc) [])) := by
        rw [coveredBy_foldl]
        exact Or.inl ⟨elemToRange e, hmem, hc⟩
      obtain ⟨a, ha, hcov⟩ := this
      refine ⟨rangeToElem a, List.mem_map_of_mem _ ha, ?_⟩
      rwa [elemToRange_rangeToElem]
  refine ⟨main, fun input s1 s2 h1 h2 item => ?_⟩
  unfold parse at h1
  rw [h2] at h1
  cases s2 with
  | All => cases h1; rfl
  | None => cases h1; rfl
  | Some v => cases h1; exact main v item

/-- Witness for the second conjunct of C4: on `"1 1"`, `parse` yields the
condensed `Some [1]` and `parse_raw` the raw `Some [1, 1]`, and
`contains_item` agrees at `1`. -/
theorem c4_condense_preserves_membership_witness :
    contains_item (Selection.Some [SomeElementType.Individual 1]) 1 =
      contains_item (Selection.Some
        [SomeElementType.Individual 1, SomeElementType.Individual 1]) 1 :=
  c4_condense_preserves_membership.2 (String.toList "1 1")
    (Selection.Some [SomeElementType.Individual 1])
    (Selection.Some [SomeElementType.Individual 1, SomeElementType.Individual 1])
    (by decide) (by decide) 1

end ChoiceString

namespace ChoiceString

/-! ## Canonical-form lemmas for the interval union -/

/-- Every range produced by inserting `r` sits strictly above `k` whenever
`r` and every range already present do. -/
theorem insertRange_lower (k : Nat) (r : Nat × Nat) (l : List (Nat × Nat))
    (hl : ∀ p ∈ l, k < p.1) (hr : k < r.1) :
    ∀ p ∈ insertRange r l, k < p.1 := by
  induction l generalizing r with
  | nil =>
    intro p hp
    simp only [insertRange, List.mem_singleton] at hp
    subst hp
    exact hr
  | cons q rest ih =>
    intro p hp
    simp only [insertRange] at hp
    split_ifs at hp with h1 h2
    · rcases List.mem_cons.mp hp with rfl | hp
      · exact hr
      · exact hl p hp
    · rcases List.mem_cons.mp hp with rfl | hp
      · exact hl p (List.mem_cons_self p rest)
      · exact ih r (fun p hp => hl p (List.mem_cons_of_mem _ hp)) hr p hp
    · refine ih _ (fun p hp => hl p (List.mem_cons_of_mem _ hp)) ?_ p hp
      have := hl q (List.mem_cons_self q rest)
      simp only []
      omega

/-- Inserting a nonempty range into a canonical list (all ranges nonempty,
successive ranges separated by a gap of at least one integer) keeps it
canonical. -/
theorem insertRange_canon (r : Nat × Nat) (l : List (Nat × Nat))
    (hne : ∀ p ∈ l, p.1 ≤ p.2)
    (hpw : List.Pairwise (fun p q : Nat × Nat => p.2 + 1 < q.1) l)
    (hr : r.1 ≤ r.2) :
    (∀ p ∈ insertRange r l, p.1 ≤ p.2) ∧
      List.Pairwise (fun p q : Nat × Nat => p.2 + 1 < q.1)
        (insertRange r l) := by
  induction l generalizing r with
  | nil =>
    refine ⟨?_, ?_⟩
    · intro p hp
      simp only [insertRange, List.mem_singleton] at hp
      subst hp
      exact hr
    · simp [insertRange]
  | cons q rest ih =>
    obtain ⟨hgap, hpw'⟩ := List.pairwise_cons.mp hpw
    have hneq := hne q (List.mem_cons_self q rest)
    have hner : ∀ p ∈ rest, p.1 ≤ p.2 :=
      fun p hp => hne p (List.mem_cons_of_mem _ hp)
    simp only [insertRange]
    split_ifs with h1 h2
    · refine ⟨?_, ?_⟩
      · intro p hp
        rcases List.mem_cons.mp hp with rfl | hp
        · exact hr
        · exact hne p hp
      · refine List.pairwise_cons.mpr ⟨?_, hpw⟩
        intro p hp
        rcases List.mem_cons.mp hp with rfl | hp
        · exact h1
        · have := hgap p hp
          omega
    · obtain ⟨ihne, ihpw⟩ := ih r hner hpw' hr
      refine ⟨?_, ?_⟩
      · intro p hp
        rcases List.mem_cons.mp hp with rfl | hp
        · exact hneq
        · exact ihne p hp
      · exact List.pairwise_cons.mpr
          ⟨insertRange_lower (q.2 + 1) r rest hgap h2, ihpw⟩
    · exact ih (min r.1 q.1, max r.2 q.2) hner hpw' (by simp only []; omega)

/-- The fold of insertions over nonempty ranges yields a canonical list. -/
theorem foldl_insertRange_canon (rs : List (Nat × Nat))
    (acc : List (Nat × Nat))
    (hrs : ∀ a ∈ rs, a.1 ≤ a.2)
    (hne : ∀ p ∈ acc, p.1 ≤ p.2)
    (hpw : List.Pairwise (fun p q : Nat × Nat => p.2 + 1 < q.1) acc) :
    (∀ p ∈ rs.foldl (fun a r => insertRange r a) acc, p.1 ≤ p.2) ∧
      List.Pairwise (fun p q : Nat × Nat => p.2 + 1 < q.1)
        (rs.foldl (fun a r => insertRange r a) acc) := by
  induction rs generalizing acc with
  | nil => exact ⟨hne, hpw⟩
  | cons r rs ih =>
    simp only [List.foldl_cons]
    obtain ⟨hne', hpw'⟩ := insertRange_canon r acc hne hpw
      (hrs r (List.mem_cons_self r rs))
    exact ih (insertRange r acc)
      (fun a ha => hrs a (List.mem_cons_of_mem _ ha)) hne' hpw'

/-! ## Claim theorem: canonical form of the normalized output (C6) -/

/-- C6: for every input list, the condensed output is canonical: taking
each element's inclusive bounds, every earlier element's upper bound is at
least two below every later element's lower bound (so the elements are
pairwise disjoint, non-adjacent — not mergeable into one contiguous range
— and sorted strictly ascending by lower bound), and every element whose
merged range has `lo == hi` is an `Individual` while every `Range` in the
output has `lo < hi`. -/
theorem c6_canonical_form (v : List SomeElementType) :
    List.Pairwise
      (fun e f => (elemToRange e).2 + 1 < (elemToRange f).1)
      (condense_selections v) ∧
    ∀ e ∈ condense_selections v,
      (match e with
       | SomeElementType.Individual _ => True
       | SomeElementType.Range lo hi => lo < hi) := by
  have hcanon := foldl_insertRange_canon
    ((v.map elemToRange).filter (fun a => a.1 ≤ a.2)) []
    (by
      intro a ha
      have := (List.mem_filter.mp ha).2
      simpa using this)
    (by intro p hp; simp at hp)
    (by simp)
  obtain ⟨hne, hpw⟩ := hcanon
  constructor
  · unfold condense_selections
    simp only []
    rw [List.pairwise_map]
    refine hpw.imp ?_
    intro a b h
    rwa [elemToRange_rangeToElem, elemToRange_rangeToElem]
  · intro e he
    unfold condense_selections at he
    simp only [] at he
    obtain ⟨a, ha, rfl⟩ := List.mem_map.mp he
    have hale := hne a ha
    unfold rangeToElem
    split_ifs with h
    · trivial
    · simp only []
      omega

end ChoiceString

namespace ChoiceString

/-! ## Claim theorem: adjacent/overlapping ranges merge (C7) -/

/-- C7: `parse("1 3   5;;6-15   20")` yields
`Some([Individual(1), Individual(3), Range(5,15), Individual(20)])` — the
adjacent `5` and `6-15` merge — and in general condensing two nonempty
ranges that overlap or are contiguous over the integers
(`lo2 ≤ hi1 + 1` and `lo1 ≤ hi2 + 1`) produces the single merged
element covering `[min lo1 lo2, max hi1 hi2]`. -/
theorem c7_adjacent_merge :
    parse (String.toList "1 3   5;;6-15   20") =
      ParseResult.ok (Selection.Some
        [SomeElementType.Individual 1, SomeElementType.Individual 3,
         SomeElementType.Range 5 15, SomeElementType.Individual 20]) ∧
    ∀ lo1 hi1 lo2 hi2 : Nat, lo1 ≤ hi1 → lo2 ≤ hi2 →
      lo2 ≤ hi1 + 1 → lo1 ≤ hi2 + 1 →
      condense_selections
        [SomeElementType.Range lo1 hi1, SomeElementType.Range lo2 hi2] =
        [rangeToElem (min lo1 lo2, max hi1 hi2)] := by
  refine ⟨by decide, ?_⟩
  intro lo1 hi1 lo2 hi2 h1 h2 h3 h4
  unfold condense_selections
  simp only [List.map_cons, List.map_nil, elemToRange, List.filter_cons,
    List.filter_nil]
  rw [if_pos (by simpa using h1), if_pos (by simpa using h2)]
  simp only [List.foldl_cons, List.foldl_nil]
  simp only [insertRange]
  rw [if_neg (by omega), if_neg (by omega)]
  simp only [insertRange, List.map_cons, List.map_nil]
  rw [Nat.min_comm lo2 lo1, Nat.max_comm hi2 hi1]

/-- Witness for C7's general conjunct: `[1,3]` and `[4,6]` are adjacent
and merge into `[1,6]`. -/
theorem c7_adjacent_merge_witness :
    condense_selections
      [SomeElementType.Range 1 3, SomeElementType.Range 4 6] =
      [rangeToElem (min 1 4, max 3 6)] :=
  c7_adjacent_merge.2 1 3 4 6 (by decide) (by decide) (by decide) (by decide)

end ChoiceString

namespace ChoiceString

/-! ## Evaluation lemmas for the embedded nom combinators -/

theorem pmap_ok {p : Parser α} {f : α → β} {i r : List Char} {v : α}
    (h : p i = .ok r v) : pmap p f i = .ok r (f v) := by
  unfold pmap; rw [h]

theorem pmap_error {p : Parser α} {f : α → β} {i : List Char} {k : ErrorKind}
    (h : p i = .error k) : pmap p f i = .error k := by
  unfold pmap; rw [h]

theorem palt_ok {p q : Parser α} {i r : List Char} {v : α}
    (h : p i = .ok r v) : palt p q i = .ok r v := by
  unfold palt; rw [h]

theorem palt_error {p q : Parser α} {i : List Char} {k : ErrorKind}
    (h : p i = .error k) : palt p q i = q i := by
  unfold palt; rw [h]

theorem ptuple2_ok {p : Parser α} {q : Parser β} {i r1 r2 : List Char}
    {a : α} {b : β} (h1 : p i = .ok r1 a) (h2 : q r1 = .ok r2 b) :
    ptuple2 p q i = .ok r2 (a, b) := by
  simp only [ptuple2, h1, h2]

theorem ptuple2_error1 {p : Parser α} {q : Parser β} {i : List Char}
    {k : ErrorKind} (h : p i = .error k) : ptuple2 p q i = .error k := by
  unfold ptuple2; rw [h]

theorem ptuple2_error2 {p : Parser α} {q : Parser β} {i r1 : List Char}
    {a : α} {k : ErrorKind} (h1 : p i = .ok r1 a) (h2 : q r1 = .error k) :
    ptuple2 p q i = .error k := by
  simp only [ptuple2, h1, h2]

theorem mapRes_ok {p : Parser α} {f : α → Option β} {i r : List Char}
    {v : α} {b : β} (h : p i = .ok r v) (hf : f v = some b) :
    mapRes p f i = .ok r b := by
  simp only [mapRes, h, hf]

theorem many1_step_ok {p : Parser α} {i r : List Char} {v : α}
    (h : p i = .ok r v) (hlt : r.length < i.length) :
    many1 p i = many1Go p (r.length + 1) r [v] := by
  unfold many1; rw [h]; exact if_pos hlt

theorem many1Go_step_ok {p : Parser α} {fuel : Nat} {i r : List Char}
    {v : α} {acc : List α} (h : p i = .ok r v) (hlt : r.length < i.length) :
    many1Go p (fuel + 1) i acc = many1Go p fuel r (v :: acc) := by
  simp only [many1Go]; rw [h]; exact if_pos hlt

theorem many1Go_step_error {p : Parser α} {fuel : Nat} {i : List Char}
    {acc : List α} {k : ErrorKind} (h : p i = .error k) :
    many1Go p (fuel + 1) i acc = .ok i acc.reverse := by
  simp only [many1Go]; rw [h]

theorem not_sep_facts {c : Char} (h : c ∉ sepChars) :
    c ≠ ',' ∧ c ≠ ';' ∧ isSpaceTab c = false := by
  simp only [sepChars, List.mem_cons, List.not_mem_nil, or_false, not_or] at h
  refine ⟨h.1, h.2.1, ?_⟩
  simp only [isSpaceTab, Bool.or_eq_false_iff, beq_eq_false_iff_ne, ne_eq]
  exact ⟨h.2.2.1, h.2.2.2⟩

theorem sep_not_digit {c : Char} (h : c ∈ sepChars) : c.isDigit = false := by
  have : c = ',' ∨ c = ';' ∨ c = ' ' ∨ c = '\t' := by simpa [sepChars] using h
  rcases this with rfl | rfl | rfl | rfl <;> decide

theorem sep_not_dash {c : Char} (h : c ∈ sepChars) : (c == '-') = false := by
  have : c = ',' ∨ c = ';' ∨ c = ' ' ∨ c = '\t' := by simpa [sepChars] using h
  rcases this with rfl | rfl | rfl | rfl <;> decide

theorem headNot_digit_of_seps (l : List Char) (hl : ∀ c ∈ l, c ∈ sepChars) :
    headNot Char.isDigit l := by
  cases l with
  | nil => trivial
  | cons c t => exact sep_not_digit (hl c (List.mem_cons_self c t))

theorem headNot_dash_of_seps (l : List Char) (hl : ∀ c ∈ l, c ∈ sepChars) :
    headNot (fun c => c == '-') l := by
  cases l with
  | nil => trivial
  | cons c t => exact sep_not_dash (hl c (List.mem_cons_self c t))

theorem headNot_spaceTab_of_headNotSep (l : List Char) (h : headNotSep l) :
    headNot isSpaceTab l := by
  cases l with
  | nil => trivial
  | cons c t => exact (not_sep_facts (h : c ∉ sepChars)).2.2

/-! ## takeWhile / dropWhile helpers -/

theorem takeWhile_nil_headNot (p : Char → Bool) (l : List Char)
    (h : headNot p l) : l.takeWhile p = [] := by
  cases l with
  | nil => rfl
  | cons c t =>
    have h' : p c = false := h
    simp [List.takeWhile_cons, h']

theorem dropWhile_self_headNot (p : Char → Bool) (l : List Char)
    (h : headNot p l) : l.dropWhile p = l := by
  cases l with
  | nil => rfl
  | cons c t =>
    have h' : p c = false := h
    simp [List.dropWhile_cons, h']

theorem dropWhile_append_headNot (p : Char → Bool) (s rest : List Char)
    (h : headNot p rest) :
    (s ++ rest).dropWhile p = s.dropWhile p ++ rest := by
  induction s with
  | nil =>
    simp only [List.nil_append, List.dropWhile_nil]
    exact dropWhile_self_headNot p rest h
  | cons a s ih =>
    by_cases hpa : p a = true
    · simp [List.dropWhile_cons, hpa, ih]
    · simp [List.dropWhile_cons, hpa]

/-! ## Single-token parser evaluations -/

theorem ptag_single_eq (d : Char) (xs : List Char) :
    ptag [d] (d :: xs) = .ok xs [d] := by
  unfold ptag
  have hcond : (d :: xs).take [d].length = [d] := rfl
  rw [if_pos hcond]
  rfl

theorem ptag_single_ne (c d : Char) (xs : List Char) (h : c ≠ d) :
    ptag [d] (c :: xs) = .error .Tag := by
  unfold ptag
  have hcond : ¬((c :: xs).take [d].length = [d]) := by
    intro heq
    have heq' : ([c] : List Char) = [d] := heq
    injection heq' with h1 _
    exact h h1
  rw [if_neg hcond]

theorem space1_cons (c : Char) (xs : List Char) (hc : isSpaceTab c = true) :
    space1 (c :: xs) =
      .ok (xs.dropWhile isSpaceTab) (c :: xs.takeWhile isSpaceTab) := by
  have ht : (c :: xs).takeWhile isSpaceTab = c :: xs.takeWhile isSpaceTab := by
    rw [List.takeWhile_cons, if_pos hc]
  have hd : (c :: xs).dropWhile isSpaceTab = xs.dropWhile isSpaceTab := by
    rw [List.dropWhile_cons, if_pos hc]
  unfold space1
  rw [ht, hd]

theorem digit1_single (c : Char) (rest : List Char) (hc : c.isDigit = true)
    (h : headNot Char.isDigit rest) : digit1 (c :: rest) = .ok rest [c] := by
  have ht : (c :: rest).takeWhile Char.isDigit = [c] := by
    rw [List.takeWhile_cons, if_pos hc, takeWhile_nil_headNot _ _ h]
  have hd : (c :: rest).dropWhile Char.isDigit = rest := by
    rw [List.dropWhile_cons, if_pos hc, dropWhile_self_headNot _ _ h]
  unfold digit1
  rw [ht, hd]

theorem isADash_headNot (rest : List Char)
    (h : headNot (fun c => c == '-') rest) : isADash rest = .error .IsA := by
  have ht : rest.takeWhile (fun c => c == '-') = [] :=
    takeWhile_nil_headNot _ _ h
  unfold isADash
  rw [ht]

end ChoiceString

namespace ChoiceString

/-! ## The separator parser consumes any nonempty run of separator
characters -/

/-- On input whose head is not a separator character (or empty input),
`sep_token` fails with a recoverable error (the last branch, `space1`,
reports `Space`). -/
theorem sep_token_notSep (rest : List Char) (h : headNotSep rest) :
    sep_token rest = .error .Space := by
  cases rest with
  | nil => rfl
  | cons c t =>
    obtain ⟨h1, h2, h3⟩ := not_sep_facts (h : c ∉ sepChars)
    unfold sep_token
    rw [palt_error (ptag_single_ne c ',' t h1),
      palt_error (ptag_single_ne c ';' t h2)]
    have ht : (c :: t).takeWhile isSpaceTab = [] := by
      rw [List.takeWhile_cons, h3]
      rfl
    unfold space1
    rw [ht]

/-- On input starting with a separator character, `sep_token` consumes a
nonempty prefix of separator characters and nothing else. -/
theorem sep_token_cons (c : Char) (s rest : List Char) (hc : c ∈ sepChars)
    (hs : ∀ x ∈ s, x ∈ sepChars) (hrest : headNotSep rest) :
    ∃ (v s1 : List Char), sep_token (c :: (s ++ rest)) = .ok (s1 ++ rest) v ∧
      s1.length ≤ s.length ∧ ∀ x ∈ s1, x ∈ sepChars := by
  have hcases : c = ',' ∨ c = ';' ∨ c = ' ' ∨ c = '\t' := by
    simpa [sepChars] using hc
  have hspace : ∀ hc' : isSpaceTab c = true,
      ∃ (v s1 : List Char),
        sep_token (c :: (s ++ rest)) = .ok (s1 ++ rest) v ∧
        s1.length ≤ s.length ∧ ∀ x ∈ s1, x ∈ sepChars := by
    intro hc'
    have hnr : headNot isSpaceTab rest :=
      headNot_spaceTab_of_headNotSep rest hrest
    have hdw : (s ++ rest).dropWhile isSpaceTab =
        s.dropWhile isSpaceTab ++ rest :=
      dropWhile_append_headNot isSpaceTab s rest hnr
    have hne1 : c ≠ ',' := by
      intro he
      rw [he] at hc'
      exact absurd hc' (by decide)
    have hne2 : c ≠ ';' := by
      intro he
      rw [he] at hc'
      exact absurd hc' (by decide)
    refine ⟨c :: (s ++ rest).takeWhile isSpaceTab, s.dropWhile isSpaceTab,
      ?_, ?_, ?_⟩
    · unfold sep_token
      rw [palt_error (ptag_single_ne c ',' _ hne1),
        palt_error (ptag_single_ne c ';' _ hne2),
        space1_cons c _ hc', hdw]
    · exact (List.dropWhile_sublist _).length_le
    · intro x hx
      exact hs x ((List.dropWhile_sublist _).subset hx)
  rcases hcases with rfl | rfl | rfl | rfl
  · refine ⟨[','], s, ?_, le_refl _, hs⟩
    unfold sep_token
    exact palt_ok (ptag_single_eq ',' (s ++ rest))
  · refine ⟨[';'], s, ?_, le_refl _, hs⟩
    unfold sep_token
    rw [palt_error (ptag_single_ne ';' ',' _ (by decide))]
    exact palt_ok (ptag_single_eq ';' (s ++ rest))
  · exact hspace (by decide)
  · exact hspace (by decide)

/-- `many1 sep_token`'s loop consumes the whole separator run and stops
exactly at the first non-separator character (or the end of input). -/
theorem many1Go_sep (fuel : Nat) :
    ∀ (s rest : List Char) (acc : List (List Char)),
      (∀ c ∈ s, c ∈ sepChars) → headNotSep rest →
      (s ++ rest).length < fuel →
      ∃ vs, many1Go sep_token fuel (s ++ rest) acc = .ok rest vs := by
  induction fuel with
  | zero =>
    intro s rest acc _ _ h
    exact absurd h (by omega)
  | succ f ih =>
    intro s rest acc hs hrest hlen
    cases s with
    | nil =>
      refine ⟨acc.reverse, ?_⟩
      rw [List.nil_append]
      exact many1Go_step_error (sep_token_notSep rest hrest)
    | cons c s0 =>
      obtain ⟨v, s1, hst, hl1, hseps1⟩ := sep_token_cons c s0 rest
        (hs c (List.mem_cons_self c s0))
        (fun x hx => hs x (List.mem_cons_of_mem _ hx)) hrest
      have hlt : (s1 ++ rest).length < ((c :: s0) ++ rest).length := by
        simp only [List.length_append, List.cons_append, List.length_cons]
        omega
      have hlen' : (s1 ++ rest).length < f := by
        simp only [List.length_append, List.cons_append, List.length_cons]
          at hlen ⊢
        omega
      obtain ⟨vs, hgo⟩ := ih s1 rest (v :: acc) hseps1 hrest hlen'
      refine ⟨vs, ?_⟩
      rw [show ((c :: s0) ++ rest) = c :: (s0 ++ rest) from rfl] at hlt ⊢
      rw [many1Go_step_ok hst hlt, hgo]

/-- `many1 sep_token` consumes any nonempty separator run. -/
theorem many1_sep (s rest : List Char) (hne : s ≠ [])
    (hs : ∀ c ∈ s, c ∈ sepChars) (hrest : headNotSep rest) :
    ∃ vs, many1 sep_token (s ++ rest) = .ok rest vs := by
  obtain ⟨c, s0, rfl⟩ := List.exists_cons_of_ne_nil hne
  obtain ⟨v, s1, hst, hl1, hseps1⟩ := sep_token_cons c s0 rest
    (hs c (List.mem_cons_self c s0))
    (fun x hx => hs x (List.mem_cons_of_mem _ hx)) hrest
  have hlt : (s1 ++ rest).length < (c :: (s0 ++ rest)).length := by
    simp only [List.length_append, List.length_cons]
    omega
  obtain ⟨vs, hgo⟩ := many1Go_sep ((s1 ++ rest).length + 1) s1 rest [v]
    hseps1 hrest (by omega)
  refine ⟨vs, ?_⟩
  rw [show ((c :: s0) ++ rest) = c :: (s0 ++ rest) from rfl]
  rw [many1_step_ok hst hlt, hgo]

/-- `element_separator` consumes any nonempty separator run, stopping at
the first non-separator character. -/
theorem element_separator_sep (s rest : List Char) (hne : s ≠ [])
    (hs : ∀ c ∈ s, c ∈ sepChars) (hrest : headNotSep rest) :
    element_separator (s ++ rest) = .ok rest [] := by
  obtain ⟨vs, hm⟩ := many1_sep s rest hne hs hrest
  unfold element_separator
  exact palt_ok (pmap_ok hm)

/-- At the end of input, `element_separator` succeeds through its `eof`
branch. -/
theorem element_separator_nil : element_separator [] = .ok [] [] := by decide

end ChoiceString

namespace ChoiceString

/-! ## Element-level evaluations -/

/-- A single digit followed by anything that is neither a digit nor a dash
parses as that `Individual` (the `range_element` alternative fails on the
missing dash before reaching its `cut`). -/
theorem some_element_digit (d : Char) (n : Nat) (rest : List Char)
    (hd : d.isDigit = true) (hn : usizeFromStr [d] = some n)
    (h1 : headNot Char.isDigit rest)
    (h2 : headNot (fun c => c == '-') rest) :
    some_element (d :: rest) = .ok rest (SomeElementType.Individual n) := by
  have hdig : digit1 (d :: rest) = .ok rest [d] := digit1_single d rest hd h1
  have hfirst : mapRes digit1 usizeFromStr (d :: rest) = .ok rest n :=
    mapRes_ok hdig hn
  have hdash : isADash rest = .error .IsA := isADash_headNot rest h2
  have hrange : range_element (d :: rest) = .error .IsA := by
    unfold range_element ptuple3
    apply pmap_error
    apply pmap_error
    exact ptuple2_error2 hfirst (ptuple2_error1 hdash)
  unfold some_element
  rw [palt_error hrange]
  unfold individual_element
  exact pmap_ok hfirst

/-- `tag_no_case` fails on the spot when the first characters differ even
case-insensitively. -/
theorem ptagNoCase_head_ne (d : Char) (ts : List Char) (c : Char)
    (xs : List Char) (h : asciiLower c ≠ asciiLower d) :
    ptagNoCase (d :: ts) (c :: xs) = .error .Tag := by
  unfold ptagNoCase
  have hcond : ¬(((c :: xs).take (d :: ts).length).map asciiLower =
      (d :: ts).map asciiLower) := by
    intro heq
    have heq' : asciiLower c :: (List.map asciiLower (xs.take ts.length)) =
        asciiLower d :: (List.map asciiLower ts) := heq
    injection heq' with hh _
    exact h hh
  rw [if_neg hcond]

/-- `select_none` fails recoverably on input whose first character cannot
start `none`. -/
theorem select_none_head (c : Char) (xs : List Char)
    (h : asciiLower c ≠ 'n') : select_none (c :: xs) = .error .Tag := by
  unfold select_none
  have hpeof : peof (c :: xs) = .error .Eof := rfl
  rw [palt_error (pmap_error hpeof)]
  apply pmap_error
  apply ptuple2_error1
  exact ptagNoCase_head_ne 'n' ['o', 'n', 'e'] c xs h

/-- `select_all` fails recoverably on input whose first character cannot
start `all`. -/
theorem select_all_head (c : Char) (xs : List Char)
    (h : asciiLower c ≠ 'a') : select_all (c :: xs) = .error .Tag := by
  unfold select_all
  apply pmap_error
  apply ptuple2_error1
  exact ptagNoCase_head_ne 'a' ['l', 'l'] c xs h

/-- `select_some` on `1<seps>5<trailing seps>`: any nonempty separator
mixture between the elements is consumed, trailing separators are
consumed, and the element list is `[1, 5]`. -/
theorem select_some_two (s t : List Char) (hne : s ≠ [])
    (hs : ∀ c ∈ s, c ∈ sepChars) (ht : ∀ c ∈ t, c ∈ sepChars) :
    select_some ('1' :: (s ++ '5' :: t)) =
      .ok [] (Selection.Some
        [SomeElementType.Individual 1, SomeElementType.Individual 5]) := by
  have hd1 : headNot Char.isDigit (s ++ '5' :: t) := by
    obtain ⟨c, s0, rfl⟩ := List.exists_cons_of_ne_nil hne
    exact sep_not_digit (hs c (List.mem_cons_self c s0))
  have hdash1 : headNot (fun c => c == '-') (s ++ '5' :: t) := by
    obtain ⟨c, s0, rfl⟩ := List.exists_cons_of_ne_nil hne
    exact sep_not_dash (hs c (List.mem_cons_self c s0))
  have hsome1 : some_element ('1' :: (s ++ '5' :: t)) =
      .ok (s ++ '5' :: t) (SomeElementType.Individual 1) :=
    some_element_digit '1' 1 _ (by decide) (by decide) hd1 hdash1
  have hsep1 : element_separator (s ++ '5' :: t) = .ok ('5' :: t) [] :=
    element_separator_sep s ('5' :: t) hne hs
      (by show '5' ∉ sepChars; decide)
  have hE1 : pmap (ptuple2 some_element element_separator) Prod.fst
      ('1' :: (s ++ '5' :: t)) = .ok ('5' :: t)
        (SomeElementType.Individual 1) :=
    pmap_ok (ptuple2_ok hsome1 hsep1)
  have hsome2 : some_element ('5' :: t) =
      .ok t (SomeElementType.Individual 5) :=
    some_element_digit '5' 5 t (by decide) (by decide)
      (headNot_digit_of_seps t ht) (headNot_dash_of_seps t ht)
  have hsep2 : element_separator t = .ok [] [] := by
    by_cases htnil : t = []
    · subst htnil
      exact element_separator_nil
    · have := element_separator_sep t [] htnil ht trivial
      rwa [List.append_nil] at this
  have hE2 : pmap (ptuple2 some_element element_separator) Prod.fst
      ('5' :: t) = .ok [] (SomeElementType.Individual 5) :=
    pmap_ok (ptuple2_ok hsome2 hsep2)
  have hE3 : pmap (ptuple2 some_element element_separator) Prod.fst [] =
      .error .Digit := by decide
  have hm : many1 (pmap (ptuple2 some_element element_separator) Prod.fst)
      ('1' :: (s ++ '5' :: t)) =
      .ok [] [SomeElementType.Individual 1, SomeElementType.Individual 5] := by
    rw [many1_step_ok hE1 (by
      simp only [List.length_cons, List.length_append]
      omega)]
    rw [List.length_cons]
    rw [many1Go_step_ok hE2 (by simp)]
    rw [many1Go_step_error hE3]
    rfl
  unfold select_some
  exact pmap_ok (ptuple2_ok hm (show peof [] = PResult.ok [] [] from rfl))

/-- `parse_raw` on `1<seps>5<trailing seps>`. -/
theorem parse_raw_two (s t : List Char) (hne : s ≠ [])
    (hs : ∀ c ∈ s, c ∈ sepChars) (ht : ∀ c ∈ t, c ∈ sepChars) :
    parse_raw ('1' :: (s ++ '5' :: t)) =
      ParseResult.ok (Selection.Some
        [SomeElementType.Individual 1, SomeElementType.Individual 5]) := by
  have hN : select_none ('1' :: (s ++ '5' :: t)) = .error .Tag :=
    select_none_head '1' _ (by decide)
  have hA : select_all ('1' :: (s ++ '5' :: t)) = .error .Tag :=
    select_all_head '1' _ (by decide)
  have hS := select_some_two s t hne hs ht
  unfold parse_raw selection pcomplete
  rw [palt_error hN, palt_error hA, hS]

/-! ## Claim C9: separator handling -/

/-- Counterexample to C9 as stated: a newline is a whitespace character,
but `"1\n5"` does not parse at all — `space1` only accepts space and tab,
so the input is rejected (and in fact hits the internal panic). -/
theorem c9_newline_not_separator :
    Char.isWhitespace '\n' = true ∧
    parse_raw ['1', '\n', '5'] = ParseResult.panicked ∧
    parse_raw ['1', '\n', '5'] ≠
      ParseResult.ok (Selection.Some
        [SomeElementType.Individual 1, SomeElementType.Individual 5]) := by
  refine ⟨by decide, by decide, by decide⟩

/-- C9 (amended): any nonempty mixture of comma, semicolon, space and tab
characters — not arbitrary whitespace — separates elements, and trailing
separators are permitted and ignored; the spec's example inputs parse to
the same list as a single separator. -/
theorem c9_separator_mixtures :
    (∀ s t : List Char, s ≠ [] →
      (∀ c ∈ s, c ∈ sepChars) → (∀ c ∈ t, c ∈ sepChars) →
      parse_raw ('1' :: (s ++ '5' :: t)) =
        ParseResult.ok (Selection.Some
          [SomeElementType.Individual 1, SomeElementType.Individual 5])) ∧
    parse_raw (String.toList "1,,,,5,8") = parse_raw (String.toList "1,5,8") ∧
    parse_raw (String.toList "1;,,;5 ,;  ;8") =
      parse_raw (String.toList "1,5,8") ∧
    parse_raw (String.toList "1 5 8 ") = parse_raw (String.toList "1,5,8") ∧
    parse_raw (String.toList "1,5,8") =
      ParseResult.ok (Selection.Some
        [SomeElementType.Individual 1, SomeElementType.Individual 5,
         SomeElementType.Individual 8]) := by
  exact ⟨fun s t hne hs ht => parse_raw_two s t hne hs ht,
    by decide, by decide, by decide, by decide⟩

/-- Witness for C9's universal conjunct at the separator mixture `"; "`
with trailing `" "`. -/
theorem c9_separator_mixtures_witness :
    parse_raw ('1' :: ([';', ' '] ++ '5' :: [' '])) =
      ParseResult.ok (Selection.Some
        [SomeElementType.Individual 1, SomeElementType.Individual 5]) :=
  c9_separator_mixtures.1 [';', ' '] [' '] (by decide) (by decide) (by decide)

end ChoiceString
